import Mathlib

/-!
Verification of the rule-based scoring engine of the tackstracker repository
(`backend/services/ai/smartFeatures.js`).

The four engine functions (`suggestAssignee`, `predictCompletion`,
`detectRisks`/`calculateRiskScore`, `suggestWorkloadBalancing`) are shallowly
embedded below.  Conventions of the embedding:

* JavaScript `Date` values are modelled by their millisecond timestamps (`Int`);
  `new Date(x) - new Date(y)` is the difference of the timestamps, and
  `Math.ceil(d / 86400000)` is modelled by exact integer ceiling division
  (the quotients involved are far below the magnitude at which IEEE-754
  doubles could disturb the ceiling).
* `task.progress` and `member` counters are integers, matching the data model
  (progress is an integer percentage 0-100); a missing `progress` is `none`,
  and a JavaScript comparison `undefined < c` is `false` (`jsLtNum`).
* `task.estimated_hours` is an optional integer; the source test
  `estimated_hours / 6 > daysUntilDue` is embedded as the equivalent exact
  integer comparison `6 * daysUntilDue < estimated_hours`, and JavaScript
  truthiness (`0` is falsy) is modelled explicitly.
* The floating-point quantities of `predictCompletion` (which can become
  `Infinity` or `NaN` by division by zero) are modelled by `JsNum`: an exact
  fraction `num/den` with positive denominator, plus `NaN` and signed
  infinities, with the IEEE comparison rules (`NaN ≥ c` is false).
* `Array.prototype.sort` with comparator `(a, b) => b.key - a.key` is a stable
  descending sort (ECMAScript 2019 requires sort stability); it is embedded as
  `jsSortByDesc`, an insertion sort that is stable by construction.
* Mutation is modelled separately (for the frame claim) by heap-passing
  versions of the functions in which every JavaScript array lives at a
  reference in a heap: `map`/`filter`/`[]` allocate fresh references, `sort`
  and `push` write to the reference of their receiver.  The record objects
  themselves are embedded by value because the source contains no assignment
  to any field of an input record.
-/

namespace TacksTracker

/-! ## Time arithmetic -/

/-- Milliseconds per day: the constant `1000 * 60 * 60 * 24` of the source. -/
def msPerDay : Int := 86400000

/-- Exact ceiling division (`Int./` is floor division for a positive divisor,
so `⌈a / b⌉ = -⌊-a / b⌋`). -/
def ceilDiv (a b : Int) : Int := -((-a) / b)

/-- `Math.ceil((later - earlier) / (1000 * 60 * 60 * 24))` of the source. -/
def daysBetween (later earlier : Int) : Int := ceilDiv (later - earlier) msPerDay

/-! ## Input records -/

/-- A task row as consumed by the engine.  `assigned_to`, `progress`,
`estimated_hours` and `tags` may be absent (`none` = JavaScript `undefined`). -/
structure Task where
  id : Nat := 0
  status : String := "pending"
  priority : String := "medium"
  due_date : Int := 0
  progress : Option Int := none
  depends_on : List Nat := []
  estimated_hours : Option Int := none
  assigned_to : Option Nat := none
  tags : Option (List String) := none
deriving Repr, DecidableEq

/-- A team member row. -/
structure Member where
  id : Nat := 0
  name : String := ""
  skills : Option (List String) := none
deriving Repr, DecidableEq

/-- JavaScript `p < c` where `p` may be `undefined`: comparisons with
`undefined` are false. -/
def jsLtNum (p : Option Int) (c : Int) : Bool :=
  match p with
  | some v => v < c
  | none => false

/-- `existingTasks.filter(t => t.assigned_to === member.id &&
['pending', 'in_progress'].includes(t.status))`. -/
def activeTasksOf (tasks : List Task) (memberId : Nat) : List Task :=
  tasks.filter fun t =>
    decide (t.assigned_to = some memberId ∧
      (t.status = "pending" ∨ t.status = "in_progress"))

/-! ## Risk scorer (`calculateRiskScore`, lines 167-205) -/

/-- `if (daysUntilDue < 0) score += 5`. -/
def overdueBonus (daysUntilDue : Int) : Int :=
  if daysUntilDue < 0 then 5 else 0

/-- `if (daysUntilDue <= 1 && task.progress < 80) score += 4;
else if (daysUntilDue <= 3 && task.progress < 50) score += 3`. -/
def dueSoonBonus (daysUntilDue : Int) (progress : Option Int) : Int :=
  if daysUntilDue ≤ 1 ∧ jsLtNum progress 80 then 4
  else if daysUntilDue ≤ 3 ∧ jsLtNum progress 50 then 3
  else 0

/-- `if (task.priority === 'high' && task.progress < 30) score += 2`. -/
def priorityBonus (priority : String) (progress : Option Int) : Int :=
  if priority = "high" ∧ jsLtNum progress 30 then 2 else 0

/-- `if (task.depends_on && task.depends_on.length > 0) score += 1`. -/
def dependencyBonus (dependsOn : List Nat) : Int :=
  if dependsOn ≠ [] then 1 else 0

/-- `if (task.estimated_hours && daysUntilDue > 0)` then with
`requiredDays = estimated_hours / 6`, `if (requiredDays > daysUntilDue)
score += 2`.  JavaScript truthiness makes `estimated_hours = 0` skip the
branch; `h / 6 > d` is the exact integer comparison `6 * d < h`. -/
def effortBonus (estimatedHours : Option Int) (daysUntilDue : Int) : Int :=
  match estimatedHours with
  | none => 0
  | some h => if h ≠ 0 ∧ 0 < daysUntilDue ∧ 6 * daysUntilDue < h then 2 else 0

/-- `calculateRiskScore(task)`: sum of the five bonuses, clamped above at 10.
`now` is the value the source reads from the ambient clock (`new Date()`). -/
def calculateRiskScore (task : Task) (now : Int) : Int :=
  let daysUntilDue := daysBetween task.due_date now
  min 10
    (overdueBonus daysUntilDue + dueSoonBonus daysUntilDue task.progress +
      priorityBonus task.priority task.progress +
      dependencyBonus task.depends_on +
      effortBonus task.estimated_hours daysUntilDue)

/-- `${task.progress}` as printed into a reason string. -/
def jsShowNum (p : Option Int) : String :=
  match p with
  | some v => toString v
  | none => "undefined"

/-- `getRiskReasons(task, score)` (lines 207-232); the `score` argument is
unused in the source body. -/
def getRiskReasons (task : Task) (_score : Int) (now : Int) : List String :=
  let daysUntilDue := daysBetween task.due_date now
  let dueClause : List String :=
    if daysUntilDue < 0 then
      ["Overdue by " ++ toString daysUntilDue.natAbs ++ " day(s)"]
    else if daysUntilDue ≤ 1 then
      ["Due in " ++ toString daysUntilDue ++ " day(s)"]
    else []
  let progressClause : List String :=
    if jsLtNum task.progress 50 ∧ daysUntilDue ≤ 3 then
      ["Only " ++ jsShowNum task.progress ++ "% complete"]
    else []
  let priorityClause : List String :=
    if task.priority = "high" then ["High priority"] else []
  let dependsClause : List String :=
    if task.depends_on ≠ [] then ["Has dependencies"] else []
  dueClause ++ progressClause ++ priorityClause ++ dependsClause

/-- An element of the list returned by `detectRisks`. -/
structure RiskEntry where
  task : Task
  riskScore : Int
  severity : String
  reasons : List String
deriving Repr, DecidableEq

/-- The body of the `tasks.forEach` loop of `detectRisks` (lines 144-162):
the entry pushed for `task`, if any. -/
def riskEntryFor (now : Int) (task : Task) : Option RiskEntry :=
  let riskScore := calculateRiskScore task now
  if 7 ≤ riskScore then
    some { task, riskScore, severity := "high",
           reasons := getRiskReasons task riskScore now }
  else if 4 ≤ riskScore then
    some { task, riskScore, severity := "medium",
           reasons := getRiskReasons task riskScore now }
  else none

/-- The `risks` array of `detectRisks` as it stands after the `forEach` loop,
in input order. -/
def risksOf (tasks : List Task) (now : Int) : List RiskEntry :=
  tasks.filterMap (riskEntryFor now)

/-- `array.sort((a, b) => key(b) - key(a))`: stable descending sort by an
integer key, as guaranteed by ECMAScript 2019 sort stability. -/
def jsSortByDesc {α : Type} (key : α → Int) (l : List α) : List α :=
  l.insertionSort fun a b => key b ≤ key a

/-- `detectRisks(tasks)` (lines 141-165): build the entries, then
`return risks.sort((a, b) => b.riskScore - a.riskScore)`. -/
def detectRisks (tasks : List Task) (now : Int) : List RiskEntry :=
  jsSortByDesc (fun e => e.riskScore) (risksOf tasks now)

/-! ## Properties of the stable descending sort -/

section SortLemmas

variable {α : Type} (key : α → Int)

theorem jsSortByDesc_perm (l : List α) : List.Perm (jsSortByDesc key l) l :=
  List.perm_insertionSort _ l

theorem jsSortByDesc_mem {l : List α} {x : α} :
    x ∈ jsSortByDesc key l ↔ x ∈ l :=
  List.mem_insertionSort _

theorem jsSortByDesc_sorted (l : List α) :
    List.Sorted (fun a b => key b ≤ key a) (jsSortByDesc key l) := by
  have ht : IsTotal α fun a b => key b ≤ key a := ⟨fun a b => le_total (key b) (key a)⟩
  have htr : IsTrans α fun a b => key b ≤ key a :=
    ⟨fun _ _ _ hab hbc => le_trans hbc hab⟩
  exact List.sorted_insertionSort _ l

/-- Inserting an element whose key is `s` in front of the first element of no
greater key leaves exactly one new element in the key-`s` class, at its
front. -/
theorem filter_orderedInsert_key_eq (s : Int) (a : α) (ha : key a = s) :
    ∀ l : List α,
      (List.orderedInsert (fun a b => key b ≤ key a) a l).filter
          (fun x => decide (key x = s)) =
        a :: l.filter (fun x => decide (key x = s)) := by
  intro l
  induction l with
  | nil => simp [List.orderedInsert, ha]
  | cons b t ih =>
    by_cases hb : key b ≤ key a
    · rw [List.orderedInsert_of_le _ t hb]
      simp [List.filter_cons, ha]
    · have hbs : ¬ key b = s := by
        intro h
        exact hb (by omega)
      simp [List.orderedInsert, hb, List.filter_cons, hbs, ih]

/-- Inserting an element whose key is not `s` leaves the key-`s` class
untouched. -/
theorem filter_orderedInsert_key_ne (s : Int) (a : α) (ha : ¬ key a = s) :
    ∀ l : List α,
      (List.orderedInsert (fun a b => key b ≤ key a) a l).filter
          (fun x => decide (key x = s)) =
        l.filter (fun x => decide (key x = s)) := by
  intro l
  induction l with
  | nil => simp [List.orderedInsert, ha]
  | cons b t ih =>
    by_cases hb : key b ≤ key a
    · rw [List.orderedInsert_of_le _ t hb]
      simp [List.filter_cons, ha]
    · simp [List.orderedInsert, hb, List.filter_cons, ih]

/-- Stability of `jsSortByDesc`: each class of equal keys appears in the
output in exactly its input order. -/
theorem jsSortByDesc_filter_key_eq (s : Int) (l : List α) :
    (jsSortByDesc key l).filter (fun x => decide (key x = s)) =
      l.filter (fun x => decide (key x = s)) := by
  induction l with
  | nil => rfl
  | cons a t ih =>
    show (List.orderedInsert _ a (jsSortByDesc key t)).filter _ = _
    by_cases ha : key a = s
    · rw [filter_orderedInsert_key_eq key s a ha, ih, List.filter_cons,
        if_pos (by simpa using ha)]
    · rw [filter_orderedInsert_key_ne key s a ha, ih, List.filter_cons,
        if_neg (by simpa using ha)]

/-- The head of the sorted list has the greatest key, and it is the first
element of the input attaining that key (stability of the maximum). -/
theorem jsSortByDesc_head_max {l : List α} {e : α} {t : List α}
    (h : jsSortByDesc key l = e :: t) :
    (∀ x ∈ l, key x ≤ key e) ∧
      (l.filter (fun x => decide (key x = key e))).head? = some e := by
  constructor
  · intro x hx
    have hx' : x ∈ jsSortByDesc key l := (jsSortByDesc_mem key).2 hx
    rw [h] at hx'
    rcases List.mem_cons.mp hx' with rfl | hx'
    · exact le_refl _
    · exact List.rel_of_sorted_cons (h ▸ jsSortByDesc_sorted key l) x hx'
  · have := jsSortByDesc_filter_key_eq key (key e) l
    rw [h, List.filter_cons, if_pos (by simp)] at this
    rw [← this]
    rfl

/-- In a descending-sorted nonempty list, the last element has the least
key. -/
theorem sorted_getLastD_min :
    ∀ (t : List α) (e : α),
      List.Sorted (fun a b => key b ≤ key a) (e :: t) →
      ∀ x ∈ e :: t, key (t.getLastD e) ≤ key x := by
  intro t
  induction t with
  | nil =>
    intro e _ x hx
    rcases List.mem_cons.mp hx with rfl | hx
    · exact le_refl _
    · cases hx
  | cons b t' ih =>
    intro e hs x hx
    have hs' : List.Sorted (fun a b => key b ≤ key a) (b :: t') :=
      hs.of_cons
    have heb : key b ≤ key e := List.rel_of_sorted_cons hs b (by simp)
    rw [List.getLastD_cons e b t']
    rcases List.mem_cons.mp hx with rfl | hx
    · exact le_trans (ih b hs' b (by simp)) heb
    · exact ih b hs' x hx

/-- The last element of the sorted list is in the input list. -/
theorem getLastD_mem : ∀ (t : List α) (e : α), t.getLastD e ∈ e :: t := by
  intro t
  induction t with
  | nil => intro e; simp
  | cons b t' ih =>
    intro e
    rw [List.getLastD_cons e b t']
    rcases List.mem_cons.mp (ih b) with h | h
    · rw [h]
      simp
    · right
      right
      exact h

end SortLemmas

/-! ## Completion predictor (`predictCompletion`, lines 88-136)

JavaScript numbers that may result from a division by zero are modelled by
`JsNum`: an exact fraction `num/den` (every constructor below keeps
`den > 0`), `NaN`, or a signed infinity, with IEEE comparison rules. -/

inductive JsNum where
  | nan : JsNum
  | inf : JsNum
  | ninf : JsNum
  | fin (num : Int) (den : Int) : JsNum
deriving Repr, DecidableEq

/-- JavaScript division `a / b` of two integers: `x / 0` is `Infinity`,
`-Infinity` or `NaN` by the sign of `x`. -/
def jsDivInt (a b : Int) : JsNum :=
  if b = 0 then
    if 0 < a then JsNum.inf else if a < 0 then JsNum.ninf else JsNum.nan
  else if b < 0 then JsNum.fin (-a) (-b)
  else JsNum.fin a b

/-- JavaScript multiplication `x * c` by a positive integer constant. -/
def jsMulPos (x : JsNum) (c : Int) : JsNum :=
  match x with
  | JsNum.nan => JsNum.nan
  | JsNum.inf => JsNum.inf
  | JsNum.ninf => JsNum.ninf
  | JsNum.fin n d => JsNum.fin (n * c) d

/-- JavaScript subtraction `a - x` of a finite integer and a `JsNum`. -/
def jsSubFrom (a : Int) (x : JsNum) : JsNum :=
  match x with
  | JsNum.nan => JsNum.nan
  | JsNum.inf => JsNum.ninf
  | JsNum.ninf => JsNum.inf
  | JsNum.fin n d => JsNum.fin (a * d - n) d

/-- JavaScript comparison `x >= c` against an integer constant: false for
`NaN`, true for `Infinity`, false for `-Infinity`; for a fraction with
positive denominator, `n/d >= c ↔ c*d ≤ n`. -/
def jsGe (x : JsNum) (c : Int) : Bool :=
  match x with
  | JsNum.nan => false
  | JsNum.inf => true
  | JsNum.ninf => false
  | JsNum.fin n d => c * d ≤ n

/-- `Math.round`: `⌊q + 1/2⌋` on finite values (`(2n + d) / 2d` with floor
division), identity on `NaN` and the infinities. -/
def jsRound (x : JsNum) : JsNum :=
  match x with
  | JsNum.fin n d => JsNum.fin ((2 * n + d) / (2 * d)) 1
  | y => y

/-- A goal/plan/task item as consumed by `predictCompletion`. -/
structure Item where
  created_at : Int
  due_date : Int
  progress : Option Int := none
deriving Repr, DecidableEq

/-- The `metrics` object of the prediction result. -/
structure Metrics where
  expectedProgress : JsNum
  actualProgress : JsNum
  progressDelta : JsNum
  daysRemaining : Int
deriving Repr, DecidableEq

/-- The object returned by `predictCompletion`. -/
structure PredictionResult where
  status : String
  confidence : Int
  recommendation : String
  metrics : Metrics
deriving Repr, DecidableEq

/-- `totalDays = Math.ceil((dueDate - startDate) / (1000*60*60*24))`. -/
def totalDaysOf (item : Item) : Int := daysBetween item.due_date item.created_at

/-- `daysElapsed = Math.ceil((now - startDate) / (1000*60*60*24))`. -/
def daysElapsedOf (item : Item) (now : Int) : Int := daysBetween now item.created_at

/-- `daysRemaining = Math.ceil((dueDate - now) / (1000*60*60*24))`. -/
def daysRemainingOf (item : Item) (now : Int) : Int := daysBetween item.due_date now

/-- `expectedProgress = (daysElapsed / totalDays) * 100`. -/
def expectedProgressOf (item : Item) (now : Int) : JsNum :=
  jsMulPos (jsDivInt (daysElapsedOf item now) (totalDaysOf item)) 100

/-- `actualProgress = item.progress || 0` (any falsy value gives 0). -/
def actualProgressOf (item : Item) : Int :=
  match item.progress with
  | some p => p
  | none => 0

/-- `progressDelta = actualProgress - expectedProgress`. -/
def progressDeltaOf (item : Item) (now : Int) : JsNum :=
  jsSubFrom (actualProgressOf item) (expectedProgressOf item now)

/-- `predictCompletion(item)`.  `now` is the value read from the ambient clock
at entry (`const now = new Date()`). -/
def predictCompletion (item : Item) (now : Int) : PredictionResult :=
  let daysRemaining := daysRemainingOf item now
  let progressDelta := progressDeltaOf item now
  let outcome : String × Int × String :=
    if daysRemaining < 0 then
      ("overdue", 100, "Immediate action required")
    else if jsGe progressDelta 10 then
      ("ahead_of_schedule", 90, "On track, maintain momentum")
    else if jsGe progressDelta (-10) then
      ("on_track", 80, "Progressing well")
    else if jsGe progressDelta (-25) then
      ("at_risk", 70, "May need additional resources")
    else
      ("behind_schedule", 85, "Requires immediate attention")
  { status := outcome.1
    confidence := outcome.2.1
    recommendation := outcome.2.2
    metrics :=
      { expectedProgress := jsRound (expectedProgressOf item now)
        actualProgress := jsRound (JsNum.fin (actualProgressOf item) 1)
        progressDelta := jsRound progressDelta
        daysRemaining } }

/-! ## Assignee recommender (`suggestAssignee`, lines 8-83) -/

/-- An element of the `scores` array built by `suggestAssignee`. -/
structure ScoreEntry where
  member : Member
  score : Int
  activeTasks : Nat
  overdueCount : Nat
  reasoning : String
deriving Repr, DecidableEq

/-- `generateReasoning(member, taskCount, overdueCount, score)`
(lines 61-83).  The source passes the raw, unclamped score. -/
def generateReasoning (member : Member) (taskCount : Nat)
    (overdueCount : Nat) (score : Int) : String :=
  let baseClause : String :=
    if taskCount = 0 then "no active tasks"
    else if taskCount ≤ 2 then
      "only " ++ toString taskCount ++ " active task" ++
        (if 1 < taskCount then "s" else "")
    else toString taskCount ++ " active tasks"
  let reasons : List String :=
    [baseClause] ++
      (if 0 < overdueCount then [toString overdueCount ++ " overdue"] else [])
  let joined := String.intercalate ", " reasons
  if 80 ≤ score then member.name ++ " - Best fit: " ++ joined
  else if 50 ≤ score then member.name ++ " - Good fit: " ++ joined
  else member.name ++ " - Available but busy: " ++ joined

/-- The body of `teamMembers.map(member => ...)` (lines 9-53): the score
entry computed for one member. -/
def scoreEntryFor (taskData : Task) (existingTasks : List Task) (now : Int)
    (member : Member) : ScoreEntry :=
  let memberTasks := activeTasksOf existingTasks member.id
  let afterWorkload : Int := 100 - memberTasks.length * 15
  let overdueCount := (memberTasks.filter fun t => decide (t.due_date < now)).length
  let afterOverdue : Int := afterWorkload - overdueCount * 25
  let afterSkills : Int :=
    match taskData.tags, member.skills with
    | some tags, some skills =>
        afterOverdue + (tags.filter fun tag => skills.contains tag).length * 20
    | _, _ => afterOverdue
  let upcomingDeadlines :=
    (memberTasks.filter fun t => decide (daysBetween t.due_date now ≤ 3)).length
  let rawScore : Int := afterSkills - upcomingDeadlines * 10
  { member
    score := max 0 rawScore
    activeTasks := memberTasks.length
    overdueCount
    reasoning := generateReasoning member memberTasks.length overdueCount rawScore }

/-- The `scores` array, in input member order. -/
def scoresOf (taskData : Task) (teamMembers : List Member)
    (existingTasks : List Task) (now : Int) : List ScoreEntry :=
  teamMembers.map (scoreEntryFor taskData existingTasks now)

/-- `suggestAssignee(taskData, teamMembers, existingTasks)`: sort the scores
descending and `return scores[0]` (`undefined`, i.e. `none`, on an empty
member list). -/
def suggestAssignee (taskData : Task) (teamMembers : List Member)
    (existingTasks : List Task) (now : Int) : Option ScoreEntry :=
  (jsSortByDesc (fun e => e.score)
    (scoresOf taskData teamMembers existingTasks now)).head?

/-! ## Workload balancer (`suggestWorkloadBalancing`, lines 237-269) -/

/-- An element of the `workload` array. -/
structure WEntry where
  member : Member
  taskCount : Nat
  tasks : List Task
deriving Repr, DecidableEq

/-- The body of `teamMembers.map(member => ...)` (lines 238-249). -/
def workloadEntryFor (tasks : List Task) (member : Member) : WEntry :=
  let memberTasks := activeTasksOf tasks member.id
  { member, taskCount := memberTasks.length, tasks := memberTasks }

/-- The `workload` array, in input member order. -/
def workloadOf (teamMembers : List Member) (tasks : List Task) : List WEntry :=
  teamMembers.map (workloadEntryFor tasks)

/-- The object returned by `suggestWorkloadBalancing`; fields absent from the
returned object literal are `none`. -/
structure BalancingResult where
  needsBalancing : Bool
  overloaded : Option WEntry := none
  underutilized : Option WEntry := none
  suggestion : Option String := none
  message : Option String := none
deriving Repr, DecidableEq

/-- `suggestWorkloadBalancing(teamMembers, tasks)`.  On an empty member list
the source evaluates `workload[0].taskCount` with `workload[0] === undefined`
and throws a `TypeError`; the crash is modelled as `none`. -/
def suggestWorkloadBalancing (teamMembers : List Member) (tasks : List Task) :
    Option BalancingResult :=
  let workload := jsSortByDesc (fun w => (w.taskCount : Int))
    (workloadOf teamMembers tasks)
  match workload with
  | [] => none
  | top :: rest =>
    let bottom := rest.getLastD top
    let maxLoad := top.taskCount
    let minLoad := bottom.taskCount
    if 3 ≤ (maxLoad : Int) - (minLoad : Int) then
      some { needsBalancing := true
             overloaded := some top
             underutilized := some bottom
             suggestion := some ("Consider reassigning tasks from " ++
               top.member.name ++ " (" ++ toString maxLoad ++ " tasks) to " ++
               bottom.member.name ++ " (" ++ toString minLoad ++ " tasks)") }
    else
      some { needsBalancing := false
             message := some "Workload is balanced across team" }

/-- The greatest per-member active-task count (0 on an empty member list). -/
def maxCount (teamMembers : List Member) (tasks : List Task) : Nat :=
  match (workloadOf teamMembers tasks).map (fun w => w.taskCount) with
  | [] => 0
  | c :: cs => cs.foldl max c

/-- The least per-member active-task count (0 on an empty member list). -/
def minCount (teamMembers : List Member) (tasks : List Task) : Nat :=
  match (workloadOf teamMembers tasks).map (fun w => w.taskCount) with
  | [] => 0
  | c :: cs => cs.foldl min c

/-! ## Heap model of JavaScript arrays

For the frame property, the engine functions are re-run over an explicit heap
in which every JavaScript array lives at a numbered reference: `[]`, `map`
and `filter` allocate fresh references, while `push` and the in-place
`Array.prototype.sort` write to the reference of their receiver.  Input
arrays are heap references; record objects are embedded by value because the
source never assigns to a field of an input record. -/

/-- A heap of arrays of `α`: references below `next` are allocated. -/
structure Heap (α : Type) where
  next : Nat
  store : Nat → List α

/-- Read the array at a reference. -/
def hread {α : Type} (h : Heap α) (r : Nat) : List α := h.store r

/-- Allocate a fresh array; returns the new heap and the new reference. -/
def halloc {α : Type} (h : Heap α) (l : List α) : Heap α × Nat :=
  ({ next := h.next + 1, store := Function.update h.store h.next l }, h.next)

/-- Overwrite the array at a reference (the effect of `push` and of the
in-place `sort`). -/
def hwrite {α : Type} (h : Heap α) (r : Nat) (l : List α) : Heap α :=
  { h with store := Function.update h.store r l }

/-- `h'` preserves every array that was already allocated in `h`. -/
def HeapExtends {α : Type} (h' h : Heap α) : Prop :=
  h.next ≤ h'.next ∧ ∀ r, r < h.next → h'.store r = h.store r

theorem heapExtends_refl {α : Type} (h : Heap α) : HeapExtends h h :=
  ⟨le_refl _, fun _ _ => Eq.refl _⟩

theorem heapExtends_trans {α : Type} {h₁ h₂ h₃ : Heap α}
    (h21 : HeapExtends h₂ h₁) (h32 : HeapExtends h₃ h₂) : HeapExtends h₃ h₁ :=
  ⟨le_trans h21.1 h32.1, fun r hr => by
    rw [h32.2 r (lt_of_lt_of_le hr h21.1), h21.2 r hr]⟩

theorem halloc_extends {α : Type} (h : Heap α) (l : List α) :
    HeapExtends (halloc h l).1 h := by
  refine ⟨Nat.le_succ _, fun r hr => ?_⟩
  exact Function.update_noteq (by omega) _ _

theorem hwrite_next {α : Type} (h : Heap α) (r : Nat) (l : List α) :
    (hwrite h r l).next = h.next := Eq.refl _

theorem hwrite_fresh_extends {α : Type} (h : Heap α) (r : Nat) (l : List α)
    (hr : h.next ≤ r) : HeapExtends (hwrite h r l) h := by
  refine ⟨le_refl _, fun r' hr' => ?_⟩
  exact Function.update_noteq (by omega) _ _

theorem hread_halloc {α : Type} (h : Heap α) (l : List α) :
    hread (halloc h l).1 (halloc h l).2 = l := by
  show Function.update h.store h.next l h.next = l
  exact Function.update_same _ _ _

theorem hread_hwrite {α : Type} (h : Heap α) (r : Nat) (l : List α) :
    hread (hwrite h r l) r = l :=
  Function.update_same _ _ _

/-- The heaps used by the engine, one per array element type. -/
structure EngineState where
  taskArrays : Heap Task
  memberArrays : Heap Member
  stringArrays : Heap String
  scoreArrays : Heap ScoreEntry
  riskArrays : Heap RiskEntry
  workloadArrays : Heap WEntry

/-- `s'` preserves every array of every heap that was allocated in `s`. -/
def EngineExtends (s' s : EngineState) : Prop :=
  HeapExtends s'.taskArrays s.taskArrays ∧
  HeapExtends s'.memberArrays s.memberArrays ∧
  HeapExtends s'.stringArrays s.stringArrays ∧
  HeapExtends s'.scoreArrays s.scoreArrays ∧
  HeapExtends s'.riskArrays s.riskArrays ∧
  HeapExtends s'.workloadArrays s.workloadArrays

theorem engineExtends_refl (s : EngineState) : EngineExtends s s :=
  ⟨heapExtends_refl _, heapExtends_refl _, heapExtends_refl _, heapExtends_refl _,
    heapExtends_refl _, heapExtends_refl _⟩

theorem engineExtends_trans {s₁ s₂ s₃ : EngineState}
    (h21 : EngineExtends s₂ s₁) (h32 : EngineExtends s₃ s₂) :
    EngineExtends s₃ s₁ :=
  ⟨heapExtends_trans h21.1 h32.1, heapExtends_trans h21.2.1 h32.2.1,
    heapExtends_trans h21.2.2.1 h32.2.2.1,
    heapExtends_trans h21.2.2.2.1 h32.2.2.2.1,
    heapExtends_trans h21.2.2.2.2.1 h32.2.2.2.2.1,
    heapExtends_trans h21.2.2.2.2.2 h32.2.2.2.2.2⟩

/-- One iteration of the `tasks.forEach` loop of `detectRisks`: a conditional
`risks.push(...)` onto the array at `risksRef`. -/
def pushRisk (now : Int) (risksRef : Nat) (h : Heap RiskEntry) (task : Task) :
    Heap RiskEntry :=
  match riskEntryFor now task with
  | some e => hwrite h risksRef (hread h risksRef ++ [e])
  | none => h

/-- `detectRisks` over the heap: `const risks = []` allocates, the loop
pushes, and `risks.sort(...)` sorts the array in place; the reference of the
(freshly allocated) result array is returned. -/
def detectRisksH (tasksRef : Nat) (now : Int) (s : EngineState) :
    Nat × EngineState :=
  let tasks := hread s.taskArrays tasksRef
  let allocated := halloc s.riskArrays []
  let risksRef := allocated.2
  let h₁ := tasks.foldl (pushRisk now risksRef) allocated.1
  let h₂ := hwrite h₁ risksRef
    (jsSortByDesc (fun e => e.riskScore) (hread h₁ risksRef))
  (risksRef, { s with riskArrays := h₂ })

/-- One iteration of the `teamMembers.map` callback of `suggestAssignee`,
with the arrays it allocates (`existingTasks.filter`, the two
`memberTasks.filter`s, and — when both `tags` and `skills` are present —
`taskData.tags.filter`). -/
def assigneeStep (taskData : Task) (existingTasks : List Task) (now : Int)
    (acc : List ScoreEntry × EngineState) (member : Member) :
    List ScoreEntry × EngineState :=
  let memberTasks := activeTasksOf existingTasks member.id
  let st := acc.2
  let hT₁ := (halloc st.taskArrays memberTasks).1
  let hT₂ := (halloc hT₁ (memberTasks.filter fun t => decide (t.due_date < now))).1
  let hT₃ := (halloc hT₂
    (memberTasks.filter fun t => decide (daysBetween t.due_date now ≤ 3))).1
  let hStr : Heap String :=
    match taskData.tags, member.skills with
    | some tags, some skills =>
        (halloc st.stringArrays (tags.filter fun tag => skills.contains tag)).1
    | _, _ => st.stringArrays
  (acc.1 ++ [scoreEntryFor taskData existingTasks now member],
   { st with taskArrays := hT₃, stringArrays := hStr })

/-- `suggestAssignee` over the heap: the member loop allocates its temporary
arrays, `.map` allocates the `scores` array, `scores.sort(...)` sorts it in
place, and `scores[0]` is returned. -/
def suggestAssigneeH (taskData : Task) (membersRef tasksRef : Nat) (now : Int)
    (s : EngineState) : Option ScoreEntry × EngineState :=
  let teamMembers := hread s.memberArrays membersRef
  let existingTasks := hread s.taskArrays tasksRef
  let folded := teamMembers.foldl (assigneeStep taskData existingTasks now) ([], s)
  let s₁ := folded.2
  let allocated := halloc s₁.scoreArrays folded.1
  let scoresRef := allocated.2
  let h₂ := hwrite allocated.1 scoresRef
    (jsSortByDesc (fun e => e.score) (hread allocated.1 scoresRef))
  ((hread h₂ scoresRef).head?, { s₁ with scoreArrays := h₂ })

/-- `predictCompletion` over the heap: the source performs no array
operation at all, so the state passes through unchanged. -/
def predictCompletionH (item : Item) (now : Int) (s : EngineState) :
    PredictionResult × EngineState :=
  (predictCompletion item now, s)

/-- One iteration of the `teamMembers.map` callback of
`suggestWorkloadBalancing`: `tasks.filter` allocates the member's task
array. -/
def workloadStep (tasks : List Task)
    (acc : List WEntry × EngineState) (member : Member) :
    List WEntry × EngineState :=
  let st := acc.2
  let hT₁ := (halloc st.taskArrays (activeTasksOf tasks member.id)).1
  (acc.1 ++ [workloadEntryFor tasks member], { st with taskArrays := hT₁ })

/-- `suggestWorkloadBalancing` over the heap: `.map` allocates the
`workload` array, `workload.sort(...)` sorts it in place, and the result is
computed from its first and last entries. -/
def suggestWorkloadBalancingH (membersRef tasksRef : Nat) (s : EngineState) :
    Option BalancingResult × EngineState :=
  let teamMembers := hread s.memberArrays membersRef
  let tasks := hread s.taskArrays tasksRef
  let folded := teamMembers.foldl (workloadStep tasks) ([], s)
  let s₁ := folded.2
  let allocated := halloc s₁.workloadArrays folded.1
  let wRef := allocated.2
  let h₂ := hwrite allocated.1 wRef
    (jsSortByDesc (fun w => (w.taskCount : Int)) (hread allocated.1 wRef))
  let result : Option BalancingResult :=
    match hread h₂ wRef with
    | [] => none
    | top :: rest =>
      let bottom := rest.getLastD top
      let maxLoad := top.taskCount
      let minLoad := bottom.taskCount
      if 3 ≤ (maxLoad : Int) - (minLoad : Int) then
        some { needsBalancing := true
               overloaded := some top
               underutilized := some bottom
               suggestion := some ("Consider reassigning tasks from " ++
                 top.member.name ++ " (" ++ toString maxLoad ++ " tasks) to " ++
                 bottom.member.name ++ " (" ++ toString minLoad ++ " tasks)") }
      else
        some { needsBalancing := false
               message := some "Workload is balanced across team" }
  (result, { s₁ with workloadArrays := h₂ })

/-! ### Preservation and agreement lemmas for the heap versions -/

/-- A write at a reference outside the allocated region of `h₀` preserves
that region. -/
theorem hwrite_extends_of {α : Type} {h h₀ : Heap α} (he : HeapExtends h h₀)
    (r : Nat) (l : List α) (hr : h₀.next ≤ r) :
    HeapExtends (hwrite h r l) h₀ := by
  refine ⟨he.1, fun r' hr' => ?_⟩
  have hne : Function.update h.store r l r' = h.store r' :=
    Function.update_noteq (by omega) _ _
  exact hne.trans (he.2 r' hr')

theorem pushRisk_extends_of {now : Int} {r : Nat} {h h₀ : Heap RiskEntry}
    (he : HeapExtends h h₀) (hr : h₀.next ≤ r) (task : Task) :
    HeapExtends (pushRisk now r h task) h₀ := by
  unfold pushRisk
  cases riskEntryFor now task with
  | none => exact he
  | some e => exact hwrite_extends_of he r _ hr

theorem pushRisk_fold_extends (now : Int) (r : Nat) :
    ∀ (tasks : List Task) (h h₀ : Heap RiskEntry),
      HeapExtends h h₀ → h₀.next ≤ r →
      HeapExtends (tasks.foldl (pushRisk now r) h) h₀ := by
  intro tasks
  induction tasks with
  | nil => intro h h₀ he _; exact he
  | cons t ts ih =>
    intro h h₀ he hr
    exact ih (pushRisk now r h t) h₀ (pushRisk_extends_of he hr t) hr

theorem pushRisk_fold_next (now : Int) (r : Nat) :
    ∀ (tasks : List Task) (h : Heap RiskEntry),
      (tasks.foldl (pushRisk now r) h).next = h.next := by
  intro tasks
  induction tasks with
  | nil => intro h; rfl
  | cons t ts ih =>
    intro h
    rw [List.foldl_cons, ih]
    unfold pushRisk
    cases riskEntryFor now t <;> rfl

theorem pushRisk_fold_read (now : Int) (r : Nat) :
    ∀ (tasks : List Task) (h : Heap RiskEntry),
      hread (tasks.foldl (pushRisk now r) h) r = hread h r ++ risksOf tasks now := by
  intro tasks
  induction tasks with
  | nil => intro h; simp [risksOf]
  | cons t ts ih =>
    intro h
    rw [List.foldl_cons, ih]
    unfold pushRisk risksOf
    rw [List.filterMap_cons]
    cases riskEntryFor now t with
    | none => rfl
    | some e => rw [hread_hwrite, List.append_assoc]; rfl

/-- `detectRisksH` touches no heap but the risk-entry heap, and there only
allocates and writes fresh references. -/
theorem detectRisksH_extends (tasksRef : Nat) (now : Int) (s : EngineState) :
    EngineExtends (detectRisksH tasksRef now s).2 s := by
  refine ⟨heapExtends_refl _, heapExtends_refl _, heapExtends_refl _,
    heapExtends_refl _, ?_, heapExtends_refl _⟩
  show HeapExtends (hwrite _ _ _) s.riskArrays
  have h₁ : HeapExtends (halloc s.riskArrays []).1 s.riskArrays :=
    halloc_extends _ _
  have h₂ := pushRisk_fold_extends now s.riskArrays.next
    (hread s.taskArrays tasksRef) (halloc s.riskArrays []).1 s.riskArrays h₁
    (le_refl _)
  exact hwrite_extends_of h₂ _ _ (le_refl _)

/-- Reading the returned reference of `detectRisksH` yields exactly the pure
`detectRisks` of the input array: the heap version refines the pure one. -/
theorem detectRisksH_result (tasksRef : Nat) (now : Int) (s : EngineState) :
    hread (detectRisksH tasksRef now s).2.riskArrays
        (detectRisksH tasksRef now s).1 =
      detectRisks (hread s.taskArrays tasksRef) now := by
  simp only [detectRisksH]
  rw [hread_hwrite, pushRisk_fold_read, hread_halloc]
  rfl

theorem assigneeStep_extends (taskData : Task) (existingTasks : List Task)
    (now : Int) (acc : List ScoreEntry × EngineState) (member : Member) :
    EngineExtends (assigneeStep taskData existingTasks now acc member).2 acc.2 := by
  refine ⟨?_, heapExtends_refl _, ?_, heapExtends_refl _, heapExtends_refl _,
    heapExtends_refl _⟩
  · exact heapExtends_trans
      (heapExtends_trans (halloc_extends _ _) (halloc_extends _ _))
      (halloc_extends _ _)
  · show HeapExtends
      (match taskData.tags, member.skills with
        | some tags, some skills =>
            (halloc acc.2.stringArrays
              (tags.filter fun tag => skills.contains tag)).1
        | _, _ => acc.2.stringArrays) acc.2.stringArrays
    cases taskData.tags with
    | none => exact heapExtends_refl _
    | some tags =>
      cases member.skills with
      | none => exact heapExtends_refl _
      | some skills => exact halloc_extends _ _

theorem assignee_fold (taskData : Task) (existingTasks : List Task) (now : Int) :
    ∀ (teamMembers : List Member) (acc : List ScoreEntry × EngineState),
      (teamMembers.foldl (assigneeStep taskData existingTasks now) acc).1 =
          acc.1 ++ teamMembers.map (scoreEntryFor taskData existingTasks now) ∧
        EngineExtends
          (teamMembers.foldl (assigneeStep taskData existingTasks now) acc).2
          acc.2 := by
  intro teamMembers
  induction teamMembers with
  | nil => intro acc; exact ⟨by simp, engineExtends_refl _⟩
  | cons m ms ih =>
    intro acc
    rw [List.foldl_cons]
    rcases ih (assigneeStep taskData existingTasks now acc m) with ⟨h1, h2⟩
    constructor
    · rw [h1]
      show acc.1 ++ [scoreEntryFor taskData existingTasks now m] ++ _ = _
      simp
    · exact engineExtends_trans
        (assigneeStep_extends taskData existingTasks now acc m) h2

/-- `suggestAssigneeH` only allocates fresh arrays and sorts the freshly
allocated `scores` array: every input array is preserved. -/
theorem suggestAssigneeH_extends (taskData : Task) (membersRef tasksRef : Nat)
    (now : Int) (s : EngineState) :
    EngineExtends (suggestAssigneeH taskData membersRef tasksRef now s).2 s := by
  have hfold := assignee_fold taskData (hread s.taskArrays tasksRef) now
    (hread s.memberArrays membersRef) ([], s)
  refine engineExtends_trans hfold.2
    ⟨heapExtends_refl _, heapExtends_refl _, heapExtends_refl _, ?_,
      heapExtends_refl _, heapExtends_refl _⟩
  exact hwrite_extends_of (halloc_extends _ _) _ _ (le_refl _)

/-- The heap version of `suggestAssignee` returns the pure result of the
input arrays. -/
theorem suggestAssigneeH_result (taskData : Task) (membersRef tasksRef : Nat)
    (now : Int) (s : EngineState) :
    (suggestAssigneeH taskData membersRef tasksRef now s).1 =
      suggestAssignee taskData (hread s.memberArrays membersRef)
        (hread s.taskArrays tasksRef) now := by
  simp only [suggestAssigneeH]
  rw [hread_hwrite, hread_halloc,
    (assignee_fold taskData (hread s.taskArrays tasksRef) now
      (hread s.memberArrays membersRef) ([], s)).1]
  rfl

theorem workloadStep_extends (tasks : List Task)
    (acc : List WEntry × EngineState) (member : Member) :
    EngineExtends (workloadStep tasks acc member).2 acc.2 :=
  ⟨halloc_extends _ _, heapExtends_refl _, heapExtends_refl _, heapExtends_refl _,
    heapExtends_refl _, heapExtends_refl _⟩

theorem workload_fold (tasks : List Task) :
    ∀ (teamMembers : List Member) (acc : List WEntry × EngineState),
      (teamMembers.foldl (workloadStep tasks) acc).1 =
          acc.1 ++ teamMembers.map (workloadEntryFor tasks) ∧
        EngineExtends (teamMembers.foldl (workloadStep tasks) acc).2 acc.2 := by
  intro teamMembers
  induction teamMembers with
  | nil => intro acc; exact ⟨by simp, engineExtends_refl _⟩
  | cons m ms ih =>
    intro acc
    rw [List.foldl_cons]
    rcases ih (workloadStep tasks acc m) with ⟨h1, h2⟩
    constructor
    · rw [h1]
      show acc.1 ++ [workloadEntryFor tasks m] ++ _ = _
      simp
    · exact engineExtends_trans (workloadStep_extends tasks acc m) h2

/-- `suggestWorkloadBalancingH` only allocates fresh arrays and sorts the
freshly allocated `workload` array: every input array is preserved. -/
theorem suggestWorkloadBalancingH_extends (membersRef tasksRef : Nat)
    (s : EngineState) :
    EngineExtends (suggestWorkloadBalancingH membersRef tasksRef s).2 s := by
  have hfold := workload_fold (hread s.taskArrays tasksRef)
    (hread s.memberArrays membersRef) ([], s)
  refine engineExtends_trans hfold.2
    ⟨heapExtends_refl _, heapExtends_refl _, heapExtends_refl _,
      heapExtends_refl _, heapExtends_refl _, ?_⟩
  exact hwrite_extends_of (halloc_extends _ _) _ _ (le_refl _)

/-- The heap version of `suggestWorkloadBalancing` returns the pure result of
the input arrays. -/
theorem suggestWorkloadBalancingH_result (membersRef tasksRef : Nat)
    (s : EngineState) :
    (suggestWorkloadBalancingH membersRef tasksRef s).1 =
      suggestWorkloadBalancing (hread s.memberArrays membersRef)
        (hread s.taskArrays tasksRef) := by
  simp only [suggestWorkloadBalancingH]
  rw [hread_hwrite, hread_halloc,
    (workload_fold (hread s.taskArrays tasksRef)
      (hread s.memberArrays membersRef) ([], s)).1]
  rfl

/-! ## Arithmetic lemmas for the claims -/

/-- `daysBetween` is the exact ceiling of the millisecond difference in days:
it is the least integer `q` with `later - earlier ≤ q * msPerDay`. -/
theorem daysBetween_spec (later earlier : Int) :
    later - earlier ≤ daysBetween later earlier * msPerDay ∧
      (daysBetween later earlier - 1) * msPerDay < later - earlier := by
  unfold daysBetween ceilDiv msPerDay
  omega

theorem overdueBonus_bounds (d : Int) :
    0 ≤ overdueBonus d ∧ overdueBonus d ≤ 5 := by
  unfold overdueBonus
  split_ifs <;> omega

theorem overdueBonus_of_neg {d : Int} (h : d < 0) : overdueBonus d = 5 := by
  unfold overdueBonus
  exact if_pos h

theorem dueSoonBonus_bounds (d : Int) (p : Option Int) :
    0 ≤ dueSoonBonus d p ∧ dueSoonBonus d p ≤ 4 := by
  unfold dueSoonBonus
  split_ifs <;> omega

theorem priorityBonus_bounds (pr : String) (p : Option Int) :
    0 ≤ priorityBonus pr p ∧ priorityBonus pr p ≤ 2 := by
  unfold priorityBonus
  split_ifs <;> omega

theorem dependencyBonus_bounds (dep : List Nat) :
    0 ≤ dependencyBonus dep ∧ dependencyBonus dep ≤ 1 := by
  unfold dependencyBonus
  split_ifs <;> omega

theorem effortBonus_bounds (eh : Option Int) (d : Int) :
    0 ≤ effortBonus eh d ∧ effortBonus eh d ≤ 2 := by
  cases eh with
  | none => simp [effortBonus]
  | some h =>
    simp only [effortBonus]
    split_ifs <;> omega

/-- The clamped sum is at least any lower bound of the unclamped sum that is
at most 10. -/
theorem calculateRiskScore_ge {task : Task} {now : Int} {c : Int}
    (hc : c ≤ 10)
    (h : c ≤ overdueBonus (daysBetween task.due_date now) +
      dueSoonBonus (daysBetween task.due_date now) task.progress +
      priorityBonus task.priority task.progress +
      dependencyBonus task.depends_on +
      effortBonus task.estimated_hours (daysBetween task.due_date now)) :
    c ≤ calculateRiskScore task now :=
  le_min hc h

/-! ## Membership lemmas for `detectRisks` -/

/-- For a task scoring at least 4, the loop pushes an entry carrying that
task, its score, and a severity of `medium` or `high`. -/
theorem riskEntryFor_of_ge {task : Task} {now : Int}
    (h4 : 4 ≤ calculateRiskScore task now) :
    ∃ e, riskEntryFor now task = some e ∧ e.task = task ∧
      e.riskScore = calculateRiskScore task now ∧
      (e.severity = "medium" ∨ e.severity = "high") := by
  unfold riskEntryFor
  by_cases h7 : 7 ≤ calculateRiskScore task now
  · refine ⟨_, if_pos h7, Eq.refl _, Eq.refl _, Or.inr (Eq.refl _)⟩
  · rw [if_neg h7, if_pos h4]
    exact ⟨_, Eq.refl _, Eq.refl _, Eq.refl _, Or.inl (Eq.refl _)⟩

/-- Conversely, every pushed entry scores at least 4 and carries its task's
score. -/
theorem riskEntryFor_props {task : Task} {now : Int} {e : RiskEntry}
    (h : riskEntryFor now task = some e) :
    e.task = task ∧ e.riskScore = calculateRiskScore task now ∧
      4 ≤ e.riskScore ∧ (e.severity = "medium" ∨ e.severity = "high") := by
  unfold riskEntryFor at h
  by_cases h7 : 7 ≤ calculateRiskScore task now
  · rw [if_pos h7] at h
    cases h
    refine ⟨Eq.refl _, Eq.refl _, ?_, Or.inr (Eq.refl _)⟩
    show (4 : Int) ≤ calculateRiskScore task now
    omega
  · rw [if_neg h7] at h
    by_cases h4 : 4 ≤ calculateRiskScore task now
    · rw [if_pos h4] at h
      cases h
      exact ⟨Eq.refl _, Eq.refl _, h4, Or.inl (Eq.refl _)⟩
    · rw [if_neg h4] at h
      cases h

/-- Every entry of `detectRisks` comes from an input task with score ≥ 4. -/
theorem detectRisks_entry_props {tasks : List Task} {now : Int} {e : RiskEntry}
    (h : e ∈ detectRisks tasks now) :
    4 ≤ e.riskScore ∧ e.task ∈ tasks ∧
      e.riskScore = calculateRiskScore e.task now ∧
      (e.severity = "medium" ∨ e.severity = "high") := by
  have h' : e ∈ risksOf tasks now := (jsSortByDesc_mem _).1 h
  rcases List.mem_filterMap.1 h' with ⟨task, htask, he⟩
  rcases riskEntryFor_props he with ⟨h1, h2, h3, h4⟩
  exact ⟨h3, h1 ▸ htask, h1 ▸ h2, h4⟩

/-- Every input task with score ≥ 4 yields an entry of `detectRisks`. -/
theorem mem_detectRisks_of_ge {tasks : List Task} {now : Int} {task : Task}
    (hmem : task ∈ tasks) (h4 : 4 ≤ calculateRiskScore task now) :
    ∃ e ∈ detectRisks tasks now, e.task = task ∧
      e.riskScore = calculateRiskScore task now ∧
      (e.severity = "medium" ∨ e.severity = "high") := by
  rcases riskEntryFor_of_ge h4 with ⟨e, he, h1, h2, h3⟩
  refine ⟨e, ?_, h1, h2, h3⟩
  exact (jsSortByDesc_mem _).2 (List.mem_filterMap.2 ⟨task, hmem, he⟩)

/-! ## Score and count lemmas -/

/-- Every score entry is clamped below at 0. -/
theorem scoresOf_score_nonneg {taskData : Task} {teamMembers : List Member}
    {existingTasks : List Task} {now : Int} {e : ScoreEntry}
    (h : e ∈ scoresOf taskData teamMembers existingTasks now) : 0 ≤ e.score := by
  rcases List.mem_map.1 h with ⟨m, _, rfl⟩
  exact le_max_left 0 _

theorem foldl_max_le_gen :
    ∀ (l : List Nat) (a : Nat), a ≤ l.foldl max a ∧ ∀ x ∈ l, x ≤ l.foldl max a := by
  intro l
  induction l with
  | nil => intro a; exact ⟨le_refl _, by simp⟩
  | cons c cs ih =>
    intro a
    rw [List.foldl_cons]
    rcases ih (max a c) with ⟨h1, h2⟩
    refine ⟨le_trans (le_max_left a c) h1, fun x hx => ?_⟩
    rcases List.mem_cons.mp hx with rfl | hx
    · exact le_trans (le_max_right a x) h1
    · exact h2 x hx

theorem foldl_max_mem_gen :
    ∀ (l : List Nat) (a : Nat), l.foldl max a = a ∨ l.foldl max a ∈ l := by
  intro l
  induction l with
  | nil => intro a; exact Or.inl (Eq.refl _)
  | cons c cs ih =>
    intro a
    rw [List.foldl_cons]
    rcases Nat.le_total a c with h | h
    · rw [Nat.max_eq_right h]
      rcases ih c with h' | h'
      · exact Or.inr (by rw [h']; simp)
      · exact Or.inr (List.mem_cons.mpr (Or.inr h'))
    · rw [Nat.max_eq_left h]
      rcases ih a with h' | h'
      · exact Or.inl h'
      · exact Or.inr (List.mem_cons.mpr (Or.inr h'))

theorem foldl_min_le_gen :
    ∀ (l : List Nat) (a : Nat), l.foldl min a ≤ a ∧ ∀ x ∈ l, l.foldl min a ≤ x := by
  intro l
  induction l with
  | nil => intro a; exact ⟨le_refl _, by simp⟩
  | cons c cs ih =>
    intro a
    rw [List.foldl_cons]
    rcases ih (min a c) with ⟨h1, h2⟩
    refine ⟨le_trans h1 (min_le_left a c), fun x hx => ?_⟩
    rcases List.mem_cons.mp hx with rfl | hx
    · exact le_trans h1 (min_le_right a x)
    · exact h2 x hx

theorem foldl_min_mem_gen :
    ∀ (l : List Nat) (a : Nat), l.foldl min a = a ∨ l.foldl min a ∈ l := by
  intro l
  induction l with
  | nil => intro a; exact Or.inl (Eq.refl _)
  | cons c cs ih =>
    intro a
    rw [List.foldl_cons]
    rcases Nat.le_total a c with h | h
    · rw [Nat.min_eq_left h]
      rcases ih a with h' | h'
      · exact Or.inl h'
      · exact Or.inr (List.mem_cons.mpr (Or.inr h'))
    · rw [Nat.min_eq_right h]
      rcases ih c with h' | h'
      · exact Or.inr (by rw [h']; simp)
      · exact Or.inr (List.mem_cons.mpr (Or.inr h'))

/-- `maxCount` dominates every per-member count. -/
theorem maxCount_ge (teamMembers : List Member) (tasks : List Task) :
    ∀ c ∈ (workloadOf teamMembers tasks).map (fun w => w.taskCount),
      c ≤ maxCount teamMembers tasks := by
  intro c hc
  unfold maxCount
  cases hl : (workloadOf teamMembers tasks).map (fun w => w.taskCount) with
  | nil => rw [hl] at hc; cases hc
  | cons c₀ cs =>
    rw [hl] at hc
    rcases List.mem_cons.mp hc with rfl | hc
    · exact (foldl_max_le_gen cs c).1
    · exact (foldl_max_le_gen cs c₀).2 c hc

/-- On a nonempty member list, `maxCount` is attained. -/
theorem maxCount_mem {teamMembers : List Member} (tasks : List Task)
    (hne : teamMembers ≠ []) :
    maxCount teamMembers tasks ∈
      (workloadOf teamMembers tasks).map (fun w => w.taskCount) := by
  unfold maxCount
  cases hl : (workloadOf teamMembers tasks).map (fun w => w.taskCount) with
  | nil =>
    exfalso
    cases teamMembers with
    | nil => exact hne (Eq.refl _)
    | cons m ms => simp [workloadOf] at hl
  | cons c₀ cs =>
    show cs.foldl max c₀ ∈ c₀ :: cs
    rcases foldl_max_mem_gen cs c₀ with h | h
    · rw [h]; simp
    · exact List.mem_cons.mpr (Or.inr h)

/-- `minCount` is below every per-member count. -/
theorem minCount_le (teamMembers : List Member) (tasks : List Task) :
    ∀ c ∈ (workloadOf teamMembers tasks).map (fun w => w.taskCount),
      minCount teamMembers tasks ≤ c := by
  intro c hc
  unfold minCount
  cases hl : (workloadOf teamMembers tasks).map (fun w => w.taskCount) with
  | nil => rw [hl] at hc; cases hc
  | cons c₀ cs =>
    rw [hl] at hc
    rcases List.mem_cons.mp hc with rfl | hc
    · exact (foldl_min_le_gen cs c).1
    · exact (foldl_min_le_gen cs c₀).2 c hc

/-- On a nonempty member list, `minCount` is attained. -/
theorem minCount_mem {teamMembers : List Member} (tasks : List Task)
    (hne : teamMembers ≠ []) :
    minCount teamMembers tasks ∈
      (workloadOf teamMembers tasks).map (fun w => w.taskCount) := by
  unfold minCount
  cases hl : (workloadOf teamMembers tasks).map (fun w => w.taskCount) with
  | nil =>
    exfalso
    cases teamMembers with
    | nil => exact hne (Eq.refl _)
    | cons m ms => simp [workloadOf] at hl
  | cons c₀ cs =>
    show cs.foldl min c₀ ∈ c₀ :: cs
    rcases foldl_min_mem_gen cs c₀ with h | h
    · rw [h]; simp
    · exact List.mem_cons.mpr (Or.inr h)

/-! ## The claims -/

/-- A task due one hour in the past: `Math.ceil` of the day difference is 0,
so the overdue bonus of `calculateRiskScore` does not fire. -/
def c1Task : Task :=
  { status := "pending", due_date := -3600000, progress := some 80 }

/-- C1, counterexample: a task whose `due_date` is strictly in the past
(one hour ago) and whose status is not `completed` can score 0, so
`detectRisks` produces no entry for it at all — the claimed lower bound of 4
fails. -/
theorem c1_counterexample :
    c1Task.due_date < 0 ∧ c1Task.status ≠ "completed" ∧
      calculateRiskScore c1Task 0 = 0 ∧ detectRisks [c1Task] 0 = [] := by
  decide

/-- C1, amended: for a task overdue by at least one full day — that is,
`daysUntilDue = Math.ceil((due_date - now)/day) < 0`, which is when the
source's +5 overdue bonus fires — and status not `completed`, the risk score
is at least 4, and `detectRisks` emits an entry for the task with severity
`medium` or `high`. -/
theorem c1_overdue_day_implies_medium (tasks : List Task) (now : Int)
    (task : Task) (hmem : task ∈ tasks) (_hstatus : task.status ≠ "completed")
    (hover : daysBetween task.due_date now < 0) :
    4 ≤ calculateRiskScore task now ∧
      ∃ e ∈ detectRisks tasks now, e.task = task ∧ 4 ≤ e.riskScore ∧
        (e.severity = "medium" ∨ e.severity = "high") := by
  have h4 : (4 : Int) ≤ calculateRiskScore task now := by
    apply calculateRiskScore_ge (by omega)
    have hob := overdueBonus_of_neg hover
    have h1 := dueSoonBonus_bounds (daysBetween task.due_date now) task.progress
    have h2 := priorityBonus_bounds task.priority task.progress
    have h3 := dependencyBonus_bounds task.depends_on
    have h5 := effortBonus_bounds task.estimated_hours (daysBetween task.due_date now)
    omega
  rcases mem_detectRisks_of_ge hmem h4 with ⟨e, he, he1, he2, he3⟩
  exact ⟨h4, e, he, he1, by omega, he3⟩

def c1WitnessTask : Task := { status := "pending", due_date := 0, progress := some 0 }

theorem c1_witness :
    4 ≤ calculateRiskScore c1WitnessTask (2 * msPerDay) ∧
      ∃ e ∈ detectRisks [c1WitnessTask] (2 * msPerDay), e.task = c1WitnessTask ∧
        4 ≤ e.riskScore ∧ (e.severity = "medium" ∨ e.severity = "high") :=
  c1_overdue_day_implies_medium [c1WitnessTask] (2 * msPerDay) c1WitnessTask
    (List.mem_singleton.mpr (Eq.refl _)) (by decide) (by decide)

/-- A completed task, two days overdue with no progress: it scores 9. -/
def c2Task : Task :=
  { status := "completed", due_date := -(2 * 86400000), progress := some 0 }

/-- C2, counterexample: `detectRisks` never consults `status`, so a
`completed` task with score ≥ 4 does get an entry, refuting "contains an
entry only for tasks whose status is pending or in_progress". -/
theorem c2_counterexample :
    c2Task.status = "completed" ∧
      (detectRisks [c2Task] 0).map (fun e => e.task.status) = ["completed"] := by
  decide

/-- C2, amended: `detectRisks` contains an entry exactly for the tasks whose
risk score is at least 4 — regardless of status, which it does not consult —
and the output is the input-ordered entry list sorted in descending score
order, stably (ties keep input order). -/
theorem c2_detectRisks_contents_sorted_stable (tasks : List Task) (now : Int) :
    (∀ e ∈ detectRisks tasks now,
        4 ≤ e.riskScore ∧ e.task ∈ tasks ∧
          e.riskScore = calculateRiskScore e.task now) ∧
      (∀ task ∈ tasks, 4 ≤ calculateRiskScore task now →
        ∃ e ∈ detectRisks tasks now, e.task = task) ∧
      List.Sorted (fun a b => b.riskScore ≤ a.riskScore) (detectRisks tasks now) ∧
      List.Perm (detectRisks tasks now) (risksOf tasks now) ∧
      ∀ s, (detectRisks tasks now).filter (fun e => decide (e.riskScore = s)) =
        (risksOf tasks now).filter (fun e => decide (e.riskScore = s)) := by
  refine ⟨?_, ?_, ?_, ?_, ?_⟩
  · intro e he
    rcases detectRisks_entry_props he with ⟨h1, h2, h3, _⟩
    exact ⟨h1, h2, h3⟩
  · intro task ht h4
    rcases mem_detectRisks_of_ge ht h4 with ⟨e, he, he1, _, _⟩
    exact ⟨e, he, he1⟩
  · exact jsSortByDesc_sorted _ _
  · exact jsSortByDesc_perm _ _
  · intro s
    exact jsSortByDesc_filter_key_eq _ s _

theorem c2_witness :
    ∃ e ∈ detectRisks [c2Task] 0, e.task = c2Task :=
  (c2_detectRisks_contents_sorted_stable [c2Task] 0).2.1 c2Task
    (List.mem_singleton.mpr (Eq.refl _)) (by decide)

/-- A task due in two days with full progress: harmless now, overdue later. -/
def c3Task : Task := { due_date := 2 * 86400000, progress := some 100 }

/-- C3, counterexample: the source reads the clock with `new Date()` inside
`calculateRiskScore`, so two calls with the identical task argument return
different scores at different times — the functions are not deterministic in
their (source-level) arguments alone. -/
theorem c3_counterexample :
    calculateRiskScore c3Task 0 = 0 ∧
      calculateRiskScore c3Task (5 * 86400000) = 5 ∧
      calculateRiskScore c3Task 0 ≠ calculateRiskScore c3Task (5 * 86400000) := by
  decide

def c3Member : Member := { id := 1, name := "A" }

def c3AssignTask : Task :=
  { status := "pending", due_date := 3600000, assigned_to := some 1 }

/-- C3, amended: `calculateRiskScore`/`detectRisks`, `predictCompletion` and
`suggestAssignee` read `new Date()` inside their bodies instead of taking
`now` as a parameter, and their results genuinely depend on that ambient
reading (`suggestWorkloadBalancing` alone reads no clock).  Each function is
deterministic only in its arguments together with the clock value. -/
theorem c3_engine_reads_ambient_clock :
    (∃ (t : Task) (n₁ n₂ : Int),
        calculateRiskScore t n₁ ≠ calculateRiskScore t n₂) ∧
      (∃ (ts : List Task) (n₁ n₂ : Int), detectRisks ts n₁ ≠ detectRisks ts n₂) ∧
      (∃ (i : Item) (n₁ n₂ : Int),
        predictCompletion i n₁ ≠ predictCompletion i n₂) ∧
      (∃ (td : Task) (ms : List Member) (ts : List Task) (n₁ n₂ : Int),
        suggestAssignee td ms ts n₁ ≠ suggestAssignee td ms ts n₂) := by
  refine ⟨⟨c3Task, 0, 5 * 86400000, by decide⟩,
    ⟨[c3Task], 0, 5 * 86400000, by decide⟩,
    ⟨{ created_at := 0, due_date := 2 * 86400000, progress := some 100 },
      0, 5 * 86400000, by decide⟩,
    ⟨{ }, [c3Member], [c3AssignTask], 0, 10 * 86400000, by decide⟩⟩

/-- C4: with `created_at = due_date` the source divides by `totalDays = 0`;
the quotient is `NaN` (or `Infinity` once a day has elapsed) and is stored —
`Math.round`ed — in `metrics.expectedProgress`/`progressDelta`, contradicting
the requirement that no NaN/Infinity reach the output. -/
theorem c4_totalDays_zero_produces_nan_inf :
    totalDaysOf { created_at := 0, due_date := 0 } = 0 ∧
      (predictCompletion { created_at := 0, due_date := 0 } 0).metrics.expectedProgress
        = JsNum.nan ∧
      (predictCompletion { created_at := 0, due_date := 0 } 0).metrics.progressDelta
        = JsNum.nan ∧
      (predictCompletion { created_at := 0, due_date := 0, progress := some 50 }
          msPerDay).metrics.expectedProgress = JsNum.inf := by
  decide

/-- C5: on an empty team-member list, `suggestWorkloadBalancing` evaluates
`workload[0].taskCount` with `workload[0] === undefined` and throws a
`TypeError` (modelled as `none`); it does not return an "insufficient data"
result. -/
theorem c5_empty_members_crashes (tasks : List Task) :
    suggestWorkloadBalancing [] tasks = none :=
  Eq.refl _

/-- C6: for every task, `calculateRiskScore` is an integer in `[0, 10]`: it
is `min 10` of the sum of the five bonuses, each of which is non-negative,
and `days_until_due` is the exact ceiling of `(due_date - now)` in days —
the characterization holds also when the ceiling is negative. -/
theorem c6_riskScore_range_and_ceiling (task : Task) (now : Int) :
    0 ≤ calculateRiskScore task now ∧ calculateRiskScore task now ≤ 10 ∧
      calculateRiskScore task now =
        min 10 (overdueBonus (daysBetween task.due_date now) +
          dueSoonBonus (daysBetween task.due_date now) task.progress +
          priorityBonus task.priority task.progress +
          dependencyBonus task.depends_on +
          effortBonus task.estimated_hours (daysBetween task.due_date now)) ∧
      0 ≤ overdueBonus (daysBetween task.due_date now) ∧
      0 ≤ dueSoonBonus (daysBetween task.due_date now) task.progress ∧
      0 ≤ priorityBonus task.priority task.progress ∧
      0 ≤ dependencyBonus task.depends_on ∧
      0 ≤ effortBonus task.estimated_hours (daysBetween task.due_date now) ∧
      task.due_date - now ≤ daysBetween task.due_date now * msPerDay ∧
      (daysBetween task.due_date now - 1) * msPerDay < task.due_date - now := by
  have h1 := overdueBonus_bounds (daysBetween task.due_date now)
  have h2 := dueSoonBonus_bounds (daysBetween task.due_date now) task.progress
  have h3 := priorityBonus_bounds task.priority task.progress
  have h4 := dependencyBonus_bounds task.depends_on
  have h5 := effortBonus_bounds task.estimated_hours (daysBetween task.due_date now)
  have h6 := daysBetween_spec task.due_date now
  refine ⟨calculateRiskScore_ge (by omega) (by omega), min_le_left _ _,
    Eq.refl _, h1.1, h2.1, h3.1, h4.1, h5.1, h6.1, h6.2⟩

/-- C7: the status of `predictCompletion` is one of the five enumerated
values with its fixed confidence (100, 90, 80, 70, 85 respectively), chosen
by the first matching condition in the source's order: `daysRemaining < 0`,
then `progressDelta >= 10`, `>= -10`, `>= -25`, else behind_schedule. -/
theorem c7_prediction_status_confidence (item : Item) (now : Int) :
    (((predictCompletion item now).status,
        (predictCompletion item now).confidence) = ("overdue", 100) ∨
      ((predictCompletion item now).status,
        (predictCompletion item now).confidence) = ("ahead_of_schedule", 90) ∨
      ((predictCompletion item now).status,
        (predictCompletion item now).confidence) = ("on_track", 80) ∨
      ((predictCompletion item now).status,
        (predictCompletion item now).confidence) = ("at_risk", 70) ∨
      ((predictCompletion item now).status,
        (predictCompletion item now).confidence) = ("behind_schedule", 85)) ∧
      (if daysRemainingOf item now < 0 then
        ((predictCompletion item now).status,
          (predictCompletion item now).confidence) = ("overdue", 100)
      else if jsGe (progressDeltaOf item now) 10 then
        ((predictCompletion item now).status,
          (predictCompletion item now).confidence) = ("ahead_of_schedule", 90)
      else if jsGe (progressDeltaOf item now) (-10) then
        ((predictCompletion item now).status,
          (predictCompletion item now).confidence) = ("on_track", 80)
      else if jsGe (progressDeltaOf item now) (-25) then
        ((predictCompletion item now).status,
          (predictCompletion item now).confidence) = ("at_risk", 70)
      else
        ((predictCompletion item now).status,
          (predictCompletion item now).confidence) = ("behind_schedule", 85)) := by
  simp only [predictCompletion]
  split_ifs <;> simp

/-- C8: on a nonempty member list, `suggestAssignee` returns the entry at the
head of the stable descending sort of the per-member scores: its score is
non-negative (each per-member score is clamped below at 0), at least every
other candidate's score, and on ties it is the earliest such entry in input
member order. -/
theorem c8_suggestAssignee_top (taskData : Task) (teamMembers : List Member)
    (existingTasks : List Task) (now : Int) (hne : teamMembers ≠ []) :
    ∃ e, suggestAssignee taskData teamMembers existingTasks now = some e ∧
      0 ≤ e.score ∧
      e ∈ scoresOf taskData teamMembers existingTasks now ∧
      (∀ x ∈ scoresOf taskData teamMembers existingTasks now, x.score ≤ e.score) ∧
      ((scoresOf taskData teamMembers existingTasks now).filter
          (fun x => decide (x.score = e.score))).head? = some e := by
  cases hs : jsSortByDesc (fun e => e.score)
      (scoresOf taskData teamMembers existingTasks now) with
  | nil =>
    exfalso
    have hperm := jsSortByDesc_perm (fun e : ScoreEntry => e.score)
      (scoresOf taskData teamMembers existingTasks now)
    rw [hs] at hperm
    have : scoresOf taskData teamMembers existingTasks now = [] :=
      (hperm.nil_eq).symm
    cases teamMembers with
    | nil => exact hne (Eq.refl _)
    | cons m ms => simp [scoresOf] at this
  | cons e t =>
    have hmem : e ∈ scoresOf taskData teamMembers existingTasks now := by
      have : e ∈ jsSortByDesc (fun e => e.score)
          (scoresOf taskData teamMembers existingTasks now) := by
        rw [hs]; simp
      exact (jsSortByDesc_mem _).1 this
    have hmax := jsSortByDesc_head_max (fun e : ScoreEntry => e.score) hs
    refine ⟨e, ?_, scoresOf_score_nonneg hmem, hmem, hmax.1, hmax.2⟩
    unfold suggestAssignee
    rw [hs]
    rfl

def c8Member : Member := { id := 1, name := "Alice" }

theorem c8_witness :
    ∃ e, suggestAssignee { } [c8Member] [] 0 = some e ∧
      0 ≤ e.score ∧
      e ∈ scoresOf { } [c8Member] [] 0 ∧
      (∀ x ∈ scoresOf { } [c8Member] [] 0, x.score ≤ e.score) ∧
      ((scoresOf { } [c8Member] [] 0).filter
          (fun x => decide (x.score = e.score))).head? = some e :=
  c8_suggestAssignee_top { } [c8Member] [] 0 (by simp)

/-- C9: on a nonempty member list, when the gap between the greatest and the
least per-member active-task count is at least 3, `suggestWorkloadBalancing`
reports `needsBalancing = true` with an overloaded entry realizing the
maximum and an underutilized entry realizing the minimum; when the gap is
below 3 it returns `needsBalancing = false` with the message "Workload is
balanced across team". -/
theorem c9_workload_balancing (teamMembers : List Member) (tasks : List Task)
    (hne : teamMembers ≠ []) :
    (3 ≤ (maxCount teamMembers tasks : Int) - (minCount teamMembers tasks : Int) →
      ∃ r, suggestWorkloadBalancing teamMembers tasks = some r ∧
        r.needsBalancing = true ∧
        (∃ wo, r.overloaded = some wo ∧ wo ∈ workloadOf teamMembers tasks ∧
          wo.taskCount = maxCount teamMembers tasks) ∧
        (∃ wu, r.underutilized = some wu ∧ wu ∈ workloadOf teamMembers tasks ∧
          wu.taskCount = minCount teamMembers tasks)) ∧
      ((maxCount teamMembers tasks : Int) - (minCount teamMembers tasks : Int) < 3 →
        suggestWorkloadBalancing teamMembers tasks =
          some { needsBalancing := false,
                 message := some "Workload is balanced across team" }) := by
  cases hs : jsSortByDesc (fun w => (w.taskCount : Int))
      (workloadOf teamMembers tasks) with
  | nil =>
    exfalso
    have hperm := jsSortByDesc_perm (fun w : WEntry => (w.taskCount : Int))
      (workloadOf teamMembers tasks)
    rw [hs] at hperm
    have : workloadOf teamMembers tasks = [] := (hperm.nil_eq).symm
    cases teamMembers with
    | nil => exact hne (Eq.refl _)
    | cons m ms => simp [workloadOf] at this
  | cons top rest =>
    have htop_mem : top ∈ workloadOf teamMembers tasks := by
      have : top ∈ jsSortByDesc (fun w => (w.taskCount : Int))
          (workloadOf teamMembers tasks) := by
        rw [hs]; simp
      exact (jsSortByDesc_mem _).1 this
    have hbot_mem : rest.getLastD top ∈ workloadOf teamMembers tasks := by
      have h1 : rest.getLastD top ∈ top :: rest := getLastD_mem rest top
      have : rest.getLastD top ∈ jsSortByDesc (fun w => (w.taskCount : Int))
          (workloadOf teamMembers tasks) := by
        rw [hs]; exact h1
      exact (jsSortByDesc_mem _).1 this
    have hmaxle := (jsSortByDesc_head_max (fun w : WEntry => (w.taskCount : Int)) hs).1
    have hminle := sorted_getLastD_min (fun w : WEntry => (w.taskCount : Int))
      rest top (hs ▸ jsSortByDesc_sorted _ _)
    have hmax : top.taskCount = maxCount teamMembers tasks := by
      apply Nat.le_antisymm
      · exact maxCount_ge teamMembers tasks top.taskCount
          (List.mem_map_of_mem _ htop_mem)
      · rcases List.mem_map.1 (maxCount_mem tasks hne) with ⟨w, hw, hweq⟩
        have h : (w.taskCount : Int) ≤ (top.taskCount : Int) := hmaxle w hw
        have hweq' : w.taskCount = maxCount teamMembers tasks := hweq
        omega
    have hmin : (rest.getLastD top).taskCount = minCount teamMembers tasks := by
      apply Nat.le_antisymm
      · rcases List.mem_map.1 (minCount_mem tasks hne) with ⟨w, hw, hweq⟩
        have hw' : w ∈ top :: rest := by
          rw [← hs]
          exact (jsSortByDesc_mem _).2 hw
        have h : ((rest.getLastD top).taskCount : Int) ≤ (w.taskCount : Int) :=
          hminle w hw'
        have hweq' : w.taskCount = minCount teamMembers tasks := hweq
        omega
      · exact minCount_le teamMembers tasks (rest.getLastD top).taskCount
          (List.mem_map_of_mem _ hbot_mem)
    constructor
    · intro hge
      have hcond : 3 ≤ (top.taskCount : Int) -
          ((rest.getLastD top).taskCount : Int) := by
        rw [hmax, hmin]
        exact hge
      have hres : suggestWorkloadBalancing teamMembers tasks =
          some { needsBalancing := true
                 overloaded := some top
                 underutilized := some (rest.getLastD top)
                 suggestion := some ("Consider reassigning tasks from " ++
                   top.member.name ++ " (" ++ toString top.taskCount ++
                   " tasks) to " ++ (rest.getLastD top).member.name ++
                   " (" ++ toString (rest.getLastD top).taskCount ++
                   " tasks)") } := by
        simp only [suggestWorkloadBalancing, hs]
        rw [if_pos hcond]
      exact ⟨_, hres, Eq.refl _, ⟨top, Eq.refl _, htop_mem, hmax⟩,
        ⟨rest.getLastD top, Eq.refl _, hbot_mem, hmin⟩⟩
    · intro hlt
      have hcond : ¬ (3 ≤ (top.taskCount : Int) -
          ((rest.getLastD top).taskCount : Int)) := by
        rw [hmax, hmin]
        omega
      simp only [suggestWorkloadBalancing, hs]
      rw [if_neg hcond]

def c9MemberA : Member := { id := 1, name := "A" }

def c9MemberB : Member := { id := 2, name := "B" }

def c9Tasks : List Task :=
  [{ id := 1, assigned_to := some 1 }, { id := 2, assigned_to := some 1 },
   { id := 3, assigned_to := some 1 }]

theorem c9_witness :
    ∃ r, suggestWorkloadBalancing [c9MemberA, c9MemberB] c9Tasks = some r ∧
      r.needsBalancing = true ∧
      (∃ wo, r.overloaded = some wo ∧
        wo ∈ workloadOf [c9MemberA, c9MemberB] c9Tasks ∧
        wo.taskCount = maxCount [c9MemberA, c9MemberB] c9Tasks) ∧
      (∃ wu, r.underutilized = some wu ∧
        wu ∈ workloadOf [c9MemberA, c9MemberB] c9Tasks ∧
        wu.taskCount = minCount [c9MemberA, c9MemberB] c9Tasks) :=
  (c9_workload_balancing [c9MemberA, c9MemberB] c9Tasks (by simp)).1 (by decide)

/-- C10: none of the four engine functions mutates its inputs: run over the
explicit array heap, each call preserves every array that existed before the
call (in every heap), allocating and sorting only fresh arrays; the source
contains no write to any record field. -/
theorem c10_engine_preserves_inputs (taskData : Task) (item : Item)
    (membersRef tasksRef : Nat) (now : Int) (s : EngineState) :
    EngineExtends (detectRisksH tasksRef now s).2 s ∧
      EngineExtends (suggestAssigneeH taskData membersRef tasksRef now s).2 s ∧
      (predictCompletionH item now s).2 = s ∧
      EngineExtends (suggestWorkloadBalancingH membersRef tasksRef s).2 s :=
  ⟨detectRisksH_extends tasksRef now s,
    suggestAssigneeH_extends taskData membersRef tasksRef now s,
    Eq.refl _,
    suggestWorkloadBalancingH_extends membersRef tasksRef s⟩

def c10Task : Task := { id := 7, status := "pending", due_date := 1 }

def c10State : EngineState :=
  { taskArrays := ⟨1, fun _ => [c10Task]⟩
    memberArrays := ⟨1, fun _ => [c8Member]⟩
    stringArrays := ⟨0, fun _ => []⟩
    scoreArrays := ⟨0, fun _ => []⟩
    riskArrays := ⟨0, fun _ => []⟩
    workloadArrays := ⟨0, fun _ => []⟩ }

theorem c10_witness :
    (detectRisksH 0 0 c10State).2.taskArrays.store 0 = [c10Task] :=
  ((c10_engine_preserves_inputs { } { created_at := 0, due_date := 0 } 0 0 0
      c10State).1.1.2 0 (by decide)).trans (Eq.refl _)

end TacksTracker
